import Mathlib

/-!
Verification development for the cache-for-clankers semantic memory layer.

The Python sources are shallowly embedded:
  * text (`str`) becomes `List Char`;
  * floating-point scores, distances and thresholds become `ℚ`;
  * dictionaries become ordered association lists with explicit
    lookup / set / update operations;
  * the external ChromaDB vector store (out of scope per the design:
    persistence, embeddings and nearest-neighbour search are delegated to
    the Embedding Index collaborator) is modelled as oracle inputs: the
    coordinator receives the query results it would have observed.

Recursions that consume a non-structural amount of input (the regex-split
scanners) take an explicit fuel argument, always called with fuel equal to
the length of the remaining text, which the scanners never exhaust; this
keeps every definition computable by kernel reduction.
-/

attribute [local semireducible] Rat.add Rat.mul Rat.sub Rat.inv

namespace CFC

/-- Whitespace test matching Python's regex class and `str.strip` /
`str.split` on the ASCII range. -/
def isSpace (c : Char) : Bool :=
  c == ' ' || c == '\t' || c == '\n' || c == '\r' || c == '\x0b' || c == '\x0c'

/-- `str.strip()`: drop leading and trailing whitespace. -/
def stripChars (l : List Char) : List Char :=
  ((l.dropWhile isSpace).reverse.dropWhile isSpace).reverse

/-- After an opening newline, consume the remainder of a blank-line
separator, i.e. the regex tail of the separator in
`re.split` on a newline, whitespace run, newline: greedily matched
whitespace followed by a final newline (the greedy whitespace backtracks to
the last newline available in the run).  Returns the text after the
separator when the tail matches. -/
def sepRest : List Char → Option (List Char)
  | [] => none
  | c :: rest =>
    if isSpace c then
      match sepRest rest with
      | some r => some r
      | none => if c == '\n' then some rest else none
    else none

theorem sepRest_length_le : ∀ (l r : List Char), sepRest l = some r → r.length ≤ l.length := by
  intro l
  induction l with
  | nil => intro r h; simp [sepRest] at h
  | cons c rest ih =>
    intro r h
    simp only [sepRest] at h
    by_cases hc : isSpace c
    · simp only [hc, if_true] at h
      cases hs : sepRest rest with
      | some r2 =>
        rw [hs] at h
        cases h
        exact (ih _ hs).trans (Nat.le_succ _)
      | none =>
        rw [hs] at h
        by_cases hnl : c == '\n'
        · simp only [hnl, if_true] at h
          cases h
          exact Nat.le_succ _
        · simp [hnl] at h
    · simp [hc] at h

/-- Scanner for the paragraph split: `re.split` on blank-line separators
(a newline, an optional whitespace run, a newline).  `acc` holds the
current piece in reverse.  `fuel` is always at least the length of the
remaining text, so the fuel-exhausted fallback is never reached. -/
def splitBlankAux : Nat → List Char → List Char → List (List Char)
  | _, [], acc => [acc.reverse]
  | 0, l, acc => [acc.reverse ++ l]
  | Nat.succ fuel, c :: rest, acc =>
    if c == '\n' then
      match sepRest rest with
      | some r => acc.reverse :: splitBlankAux fuel r []
      | none => splitBlankAux fuel rest (c :: acc)
    else splitBlankAux fuel rest (c :: acc)

/-- `re.split` on blank-line separators. -/
def splitBlank (text : List Char) : List (List Char) :=
  splitBlankAux text.length text []

/-- `[p.strip() for p in re.split(blank-line, text) if p.strip()]`. -/
def paragraphsOf (text : List Char) : List (List Char) :=
  ((splitBlank text).map stripChars).filter (fun p => !p.isEmpty)

/-- Sentence-final punctuation recognised by the naive sentence splitter. -/
def isSentEnd (c : Char) : Bool :=
  c == '.' || c == '!' || c == '?'

/-- Scanner for `_split_sentences`: split on a whitespace run preceded by
`.`, `!` or `?` (the lookbehind inspects the last character accumulated so
far).  `acc` holds the current piece in reverse; `fuel` is always at least
the length of the remaining text. -/
def splitSentAux : Nat → List Char → List Char → List (List Char)
  | _, [], acc => [acc.reverse]
  | 0, l, acc => [acc.reverse ++ l]
  | Nat.succ fuel, c :: rest, acc =>
    if (match acc with | p :: _ => isSentEnd p | [] => false) && isSpace c then
      acc.reverse :: splitSentAux fuel (rest.dropWhile isSpace) []
    else splitSentAux fuel rest (c :: acc)

/-- `_split_sentences`: naive splitter on sentence boundaries, pieces
stripped, empties dropped. -/
def splitSentences (text : List Char) : List (List Char) :=
  ((splitSentAux text.length text []).map stripChars).filter (fun p => !p.isEmpty)

/-- The paragraph joiner: a blank line. -/
def nl2 : List Char := [ '\n', '\n' ]

/-- The sentence joiner: a single space. -/
def sp1 : List Char := [ ' ' ]

/-- `sep.join(parts)`: the pieces with one separator between consecutive
pieces. -/
def joinSep (sep : List Char) : List (List Char) → List Char
  | [] => []
  | [p] => p
  | p :: rest => p ++ sep ++ joinSep sep rest

/-- The sentence-packing loop of `chunk_text`: greedily accumulate
sentences into `buf` (whose total character count is `size`), flushing a
space-joined chunk when the next sentence would overflow `maxSize` and the
buffer is non-empty. -/
def packSentAux (maxSize : Nat) : List (List Char) → List (List Char) → Nat → List (List Char)
  | [], buf, _ => if buf.isEmpty then [] else [joinSep sp1 buf]
  | sent :: rest, buf, size =>
    if maxSize < size + sent.length && !buf.isEmpty then
      joinSep sp1 buf :: packSentAux maxSize rest [sent] sent.length
    else packSentAux maxSize rest (buf ++ [sent]) (size + sent.length)

/-- The paragraph loop of `chunk_text`: `parts`/`size` mirror
`current_parts`/`current_size`.  An over-long paragraph flushes the
accumulation and is sentence-packed instead; otherwise paragraphs are
greedily accumulated and flushed (joined by a blank line) when the next
one would overflow. -/
def chunkAux (maxSize : Nat) : List (List Char) → List (List Char) → Nat → List (List Char)
  | [], parts, _ => if parts.isEmpty then [] else [joinSep nl2 parts]
  | para :: rest, parts, size =>
    if maxSize < para.length then
      (if parts.isEmpty then [] else [joinSep nl2 parts])
        ++ packSentAux maxSize (splitSentences para) [] 0
        ++ chunkAux maxSize rest [] 0
    else if maxSize < size + para.length && !parts.isEmpty then
      joinSep nl2 parts :: chunkAux maxSize rest [para] para.length
    else chunkAux maxSize rest (parts ++ [para]) (size + para.length)

/-- Maximum number of characters per chunk when splitting long texts. -/
def DEFAULT_CHUNK_SIZE : Nat := 500

/-- `chunk_text(text, max_chunk_size)`: split into paragraph-accumulated
chunks; when no non-empty paragraph exists return the stripped text (the
empty string for whitespace-only input) as the sole element; fall back to
the whole text when the loop somehow yields nothing. -/
def chunk_text (text : List Char) (maxSize : Nat) : List (List Char) :=
  let paragraphs := paragraphsOf text
  if paragraphs.isEmpty then
    if (stripChars text).isEmpty then [[]] else [stripChars text]
  else
    let chunks := chunkAux maxSize paragraphs [] 0
    if chunks.isEmpty then [text] else chunks

/-- `str.split()` with no separator: split on whitespace runs, no empty
pieces. -/
def pySplitAux : List Char → List Char → List (List Char)
  | [], acc => if acc.isEmpty then [] else [acc.reverse]
  | c :: rest, acc =>
    if isSpace c then
      if acc.isEmpty then pySplitAux rest [] else acc.reverse :: pySplitAux rest []
    else pySplitAux rest (c :: acc)

/-- `text.split()`. -/
def pySplit (l : List Char) : List (List Char) :=
  pySplitAux l []

/-- `str.lower()` (ASCII case folding suffices for the embedded texts). -/
def toLowerText (l : List Char) : List Char :=
  l.map Char.toLower

/-- Substring test (`pat in text`). -/
def hasSub (pat : List Char) : List Char → Bool
  | [] => pat.isEmpty
  | c :: rest => pat.isPrefixOf (c :: rest) || hasSub pat rest

/-- A backtick character, then the fenced-code-block marker of three of
them. -/
def backtickChar : Char := Char.ofNat 96

def backtick3 : List Char := [backtickChar, backtickChar, backtickChar]

/-- The list-marker alternative of the structure regex, anchored at a line
start: optional whitespace, then `-`, `*` or a digit, then an optional
dot, then a whitespace character.  The leading whitespace run is forced
maximal because the marker characters are never whitespace. -/
def listMarkerAt (l : List Char) : Bool :=
  match l.dropWhile isSpace with
  | [] => false
  | c :: rest =>
    (c == '-' || c == '*' || c.isDigit) &&
      (match rest with
       | [] => false
       | d :: rest2 =>
         if d == '.' then
           (match rest2 with
            | [] => false
            | e :: _ => isSpace e)
         else isSpace d)

/-- The colon-at-line-end alternative at a position just after a colon: a
greedy whitespace run follows, and (after backtracking) a line end — a
newline inside the run, or the end of the text when the run exhausts it. -/
def colonTail (rest : List Char) : Bool :=
  let run := rest.takeWhile isSpace
  run.contains '\n' || run.length == rest.length

/-- Scan for the anchored alternatives of the structure regex
(`re.MULTILINE`): a list marker at a line start, or a colon at a line
end.  `atLineStart` is true at position 0 and right after every
newline. -/
def structureScan : List Char → Bool → Bool
  | [], _ => false
  | c :: rest, atLineStart =>
    (atLineStart && listMarkerAt (c :: rest)) ||
    (c == ':' && colonTail rest) ||
    structureScan rest (c == '\n')

/-- `re.search` of the structure-bonus pattern: a line-start list marker, a
fenced code block, or a line ending in a colon. -/
def structureBonusHit (text : List Char) : Bool :=
  hasSub backtick3 text || structureScan text true

/-- `compute_importance(text)`: vocabulary richness, capped length score,
structure bonus and fact bonus, capped at 1. -/
def compute_importance (text : List Char) : ℚ :=
  let words := pySplit (toLowerText text)
  if words.isEmpty then 0
  else
    let uniqueRatio : ℚ := (words.dedup.length : ℚ) / (words.length : ℚ)
    let lengthScore : ℚ := min ((words.length : ℚ) / 100) 1
    let structureBonus : ℚ := if structureBonusHit text then 1/10 else 0
    let factBonus : ℚ := if text.any Char.isDigit then 1/10 else 0
    min (uniqueRatio * (1/2) + lengthScore * (3/10) + structureBonus + factBonus) 1

/-- Cosine-similarity threshold above which two documents are considered
duplicates. -/
def SIMILARITY_THRESHOLD : ℚ := 92/100

/-- `min(range(len(l)), key=lambda i: l[i])`: the first index attaining
the minimal value (Python's `min` keeps the earliest of equal keys). -/
def argminFirst : List ℚ → Nat
  | [] => 0
  | [_] => 0
  | d :: e :: rest =>
    let j := argminFirst (e :: rest)
    if (e :: rest).getD j 0 < d then j + 1 else 0

/-- `deduplicate_content(candidate, existing_documents, existing_distances,
threshold)`: nothing to compare against an empty distance list; otherwise
pick the first index of minimal distance, convert to similarity
`1 - distance`, and flag a duplicate when the similarity reaches the
threshold.  The candidate text and the documents are not inspected. -/
def deduplicate_content (candidate : List Char) (existing_documents : List (List Char))
    (existing_distances : List ℚ) (threshold : ℚ) : Bool × Option Nat :=
  match existing_distances with
  | [] => (false, none)
  | d :: rest =>
    let bestIdx := argminFirst (d :: rest)
    let similarity := 1 - (d :: rest).getD bestIdx 0
    (decide (threshold ≤ similarity), some bestIdx)

/-- A metadata value: the embedded code stores numbers (timestamps,
importance scores) and strings (session ids, caller-supplied tags). -/
inductive MetaVal where
  | num (q : ℚ)
  | str (s : String)
deriving DecidableEq

/-- A Python dict of metadata: an ordered association list. -/
abbrev Meta := List (String × MetaVal)

/-- `d[k]` lookup (`None` when the key is absent): the value of the first
entry carrying the key. -/
def dictGet (d : Meta) (k : String) : Option MetaVal :=
  match d with
  | [] => none
  | p :: rest => if p.fst == k then some p.snd else dictGet rest k

/-- `d[k] = v`: overwrite in place when the key is present, append
otherwise (Python dicts keep insertion order). -/
def dictSet (d : Meta) (k : String) (v : MetaVal) : Meta :=
  if d.any (fun p => p.fst == k) then
    d.map (fun p => if p.fst == k then (k, v) else p)
  else d ++ [(k, v)]

/-- `d.update(m)`: set every entry of `m` into `d`, in order. -/
def dictUpd (d : Meta) (m : Meta) : Meta :=
  m.foldl (fun acc p => dictSet acc p.fst p.snd) d

/-- A write issued to the vector store by the coordinator. -/
inductive StoreEffect where
  | add (id : String) (content : List Char) (meta : Meta)
  | update (id : String) (content : List Char) (meta : Meta)
deriving DecidableEq

/-- The metadata carried by a write. -/
def effectMeta : StoreEffect → Meta
  | .add _ _ m => m
  | .update _ _ m => m

/-- The inner (index 0) lists of a nearest-neighbour query result, as
consumed by `_store_with_dedup`: `results` ids, documents and distances
are parallel lists (a guarantee of the external store); an empty outer
result collapses to empty inner lists. -/
structure QueryView where
  ids : List String
  documents : List (List Char)
  distances : List ℚ
deriving DecidableEq

/-- What `_store_with_dedup` observes from the external vector store on
one call: the current record count, the nearest-neighbour query result
for its content, and the fresh id `generate_id` would produce. -/
structure StoreView where
  count : Nat
  nearest : QueryView
  freshId : String
deriving DecidableEq

/-- `_store_with_dedup(content, metadata)`: add outright into an empty
store; otherwise classify against the single nearest neighbour and either
merge into the existing entry (keeping the longer text, the new content
winning ties) or add under a fresh id.  Returns the id together with the
write issued. -/
def store_with_dedup (sv : StoreView) (content : List Char) (metadata : Meta)
    (threshold : ℚ) : String × StoreEffect :=
  if sv.count = 0 then
    (sv.freshId, .add sv.freshId content metadata)
  else
    match deduplicate_content content sv.nearest.documents sv.nearest.distances threshold with
    | (true, some bestIdx) =>
      let existingId := sv.nearest.ids.getD bestIdx ""
      let existingDoc := sv.nearest.documents.getD bestIdx []
      let merged := if existingDoc.length ≤ content.length then content else existingDoc
      (existingId, .update existingId merged metadata)
    | (true, none) => (sv.freshId, .add sv.freshId content metadata)
    | (false, _) => (sv.freshId, .add sv.freshId content metadata)

/-- The arguments of one `store` call. -/
structure StoreCall where
  content : List Char
  metadata : Option Meta
  sessionId : Option String
  autoChunk : Bool

/-- The base metadata of a `store` call: timestamp, session id (sentinel
"unknown" when absent) and the importance of the whole content, then the
caller-supplied metadata laid on top. -/
def baseMeta (now : ℚ) (call : StoreCall) : Meta :=
  dictUpd [("timestamp", .num now),
           ("session_id", .str (call.sessionId.getD "unknown")),
           ("importance", .num (compute_importance call.content))]
          ((call.metadata).getD [])

/-- The chunks a `store` call processes: split when auto-chunking is on
and the content is longer than 500 characters, else the whole content as
a single chunk. -/
def storeChunks (call : StoreCall) : List (List Char) :=
  if call.autoChunk && decide (500 < call.content.length) then
    chunk_text call.content DEFAULT_CHUNK_SIZE
  else [call.content]

/-- The per-chunk metadata: a copy of the base metadata with the
importance recomputed for the chunk. -/
def chunkMeta (base : Meta) (chunk : List Char) : Meta :=
  dictSet base "importance" (.num (compute_importance chunk))

/-- `store(content, metadata, session_id, auto_chunk)`: one
add-or-merge per chunk, in chunk order.  `views i` is what the vector
store presents to the `i`-th chunk's `_store_with_dedup` call.  Returns
the collected (id, write) pairs; the returned ids are the first
components. -/
def store (call : StoreCall) (now : ℚ) (threshold : ℚ) (views : Nat → StoreView) :
    List (String × StoreEffect) :=
  let base := baseMeta now call
  (storeChunks call).enum.map (fun ic =>
    store_with_dedup (views ic.fst) ic.snd (chunkMeta base ic.snd) threshold)

/-- The inner (index 0) lists of the retrieval query result consumed by
`retrieve`: parallel ids, documents, metadata dicts and distances. -/
structure RQueryView where
  ids : List String
  documents : List (List Char)
  metadatas : List Meta
  distances : List ℚ

/-- A retrieval candidate as built by `retrieve`. -/
structure Memory where
  id : String
  content : List Char
  metadata : Meta
  similarity : ℚ
deriving DecidableEq

/-- `float(meta.get("importance", 0.0))`: the stored importance, 0 when
absent (a non-numeric value is outside the coordinator's own writes). -/
def metaImportance (m : Meta) : ℚ :=
  match dictGet m "importance" with
  | some (.num q) => q
  | _ => 0

/-- The candidate-building loop of `retrieve`: for each returned document
take its metadata, drop it when its stored importance is below the floor,
and record similarity `1 - distance`. -/
def buildMemories (qv : RQueryView) (minImportance : ℚ) : List Memory :=
  qv.documents.enum.filterMap (fun idoc =>
    let meta := qv.metadatas.getD idoc.fst []
    let importance := metaImportance meta
    if importance < minImportance then none
    else some (Memory.mk (qv.ids.getD idoc.fst "") idoc.snd meta
                (1 - qv.distances.getD idoc.fst 0)))

/-- The re-ranking key: 70 % similarity, 30 % stored importance. -/
def blendedScore (m : Memory) : ℚ :=
  m.similarity * (7/10) + metaImportance m.metadata * (3/10)

/-- The comparator realising Python's stable descending sort on the
blended score. -/
def rankLE (a b : Memory) : Bool :=
  decide (blendedScore b ≤ blendedScore a)

/-- `retrieve(query, n_results, min_importance)` on the query result the
vector store returned: build the surviving candidates, stably re-rank by
descending blended score (Python's `list.sort` is a stable sort), and
truncate to `n_results`. -/
def retrieve (qv : RQueryView) (nResults : Nat) (minImportance : ℚ) : List Memory :=
  ((buildMemories qv minImportance).mergeSort rankLE).take nResults

/-! ### Concrete instances used to exercise the claims -/

/-- A store call ingesting the text "a" with no caller metadata. -/
def c1call : StoreCall := StoreCall.mk (String.toList "a") none none true

/-- A store holding one entry "bb cc" that the query reports at distance
0 (an exact embedding match). -/
def c1views : Nat → StoreView :=
  fun _ => StoreView.mk 1 (QueryView.mk ["e1"] [String.toList "bb cc"] [0]) "f1"

/-- A store call whose caller metadata supplies its own `importance`. -/
def c7call : StoreCall :=
  StoreCall.mk (String.toList "a")
    (some [("importance", MetaVal.num 5), ("extra", MetaVal.str "x")]) none true

/-- An empty store: every chunk takes the add path. -/
def c7views : Nat → StoreView :=
  fun _ => StoreView.mk 0 (QueryView.mk [] [] []) "f1"

/-- A store call with caller metadata free of the `importance` key. -/
def c7bcall : StoreCall :=
  StoreCall.mk (String.toList "a")
    (some [("extra", MetaVal.str "x"), ("session_id", MetaVal.str "s2")]) none true

/-- A duplicate-merge scenario: the incoming "a" merges into the longer
existing entry "bb cc". -/
def c6view : StoreView :=
  StoreView.mk 1 (QueryView.mk ["e9"] [String.toList "bb cc"] [0]) "f9"

/-- A one-chunk store call for the id-per-chunk claim. -/
def c10call : StoreCall := StoreCall.mk (String.toList "hi") none none true

def c10views : Nat → StoreView :=
  fun _ => StoreView.mk 0 (QueryView.mk [] [] []) "fresh0"

/-! ### Helper lemmas -/

theorem pySplitAux_all_space : ∀ l : List Char, (∀ c ∈ l, isSpace c) → pySplitAux l [] = [] := by
  intro l
  induction l with
  | nil => intro _; rfl
  | cons c rest ih =>
    intro h
    have hc : isSpace c := h c (List.mem_cons_self c rest)
    simp only [pySplitAux, hc, if_true, List.isEmpty_nil]
    exact ih (fun d hd => h d (List.mem_cons_of_mem c hd))

theorem toLower_of_space (c : Char) (h : isSpace c) : Char.toLower c = c := by
  simp only [isSpace, Bool.or_eq_true, beq_iff_eq] at h
  rcases h with ((((h | h) | h) | h) | h) | h <;> subst h <;> decide

theorem compute_importance_of_space (text : List Char) (h : ∀ c ∈ text, isSpace c) :
    compute_importance text = 0 := by
  have hw : pySplit (toLowerText text) = [] := by
    apply pySplitAux_all_space
    intro c hc
    rcases List.mem_map.mp hc with ⟨d, hd, rfl⟩
    rw [toLower_of_space d (h d hd)]
    exact h d hd
  simp only [compute_importance, pySplit] at *
  rw [hw]
  rfl

theorem compute_importance_nonneg (text : List Char) : 0 ≤ compute_importance text := by
  unfold compute_importance
  by_cases hw : (pySplit (toLowerText text)).isEmpty
  · simp [hw]
  · simp only [hw, if_false, Bool.false_eq_true]
    rw [le_min_iff]
    refine ⟨?_, by norm_num⟩
    have h1 : (0:ℚ) ≤ ((pySplit (toLowerText text)).dedup.length : ℚ) /
        ((pySplit (toLowerText text)).length : ℚ) := by positivity
    have h2 : (0:ℚ) ≤ min (((pySplit (toLowerText text)).length : ℚ) / 100) 1 := by
      rw [le_min_iff]
      constructor <;> positivity
    have h3 : (0:ℚ) ≤ (if structureBonusHit text then (1:ℚ)/10 else 0) := by
      split <;> norm_num
    have h4 : (0:ℚ) ≤ (if text.any Char.isDigit then (1:ℚ)/10 else 0) := by
      split <;> norm_num
    have := mul_nonneg h1 (by norm_num : (0:ℚ) ≤ 1/2)
    have := mul_nonneg h2 (by norm_num : (0:ℚ) ≤ 3/10)
    linarith

theorem compute_importance_le_one (text : List Char) : compute_importance text ≤ 1 := by
  unfold compute_importance
  by_cases hw : (pySplit (toLowerText text)).isEmpty
  · simp [hw]
  · simp only [hw, if_false, Bool.false_eq_true]
    exact min_le_right _ _

theorem argminFirst_spec : ∀ (l : List ℚ), l ≠ [] →
    argminFirst l < l.length ∧
    (∀ j, j < l.length → l.getD (argminFirst l) 0 ≤ l.getD j 0) ∧
    (∀ j, j < argminFirst l → l.getD (argminFirst l) 0 < l.getD j 0) := by
  intro l
  induction l with
  | nil => intro h; exact absurd rfl h
  | cons d rest ih =>
    intro _
    cases rest with
    | nil =>
      refine ⟨by simp [argminFirst], ?_, ?_⟩
      · intro j hj
        simp only [List.length_cons, List.length_nil] at hj
        have hj0 : j = 0 := by omega
        subst hj0
        simp [argminFirst]
      · intro j hj
        simp [argminFirst] at hj
    | cons e rest2 =>
      obtain ⟨ihlt, ihmin, ihfirst⟩ := ih (by simp)
      by_cases hlt : (e :: rest2).getD (argminFirst (e :: rest2)) 0 < d
      · have harg : argminFirst (d :: e :: rest2) = argminFirst (e :: rest2) + 1 := by
          simp only [argminFirst, hlt, if_true]
        refine ⟨?_, ?_, ?_⟩
        · rw [harg]; simpa using Nat.succ_lt_succ ihlt
        · intro j hj
          rw [harg, List.getD_cons_succ]
          cases j with
          | zero => exact le_of_lt hlt
          | succ j2 =>
            rw [List.getD_cons_succ]
            exact ihmin j2 (by simpa using hj)
        · intro j hj
          rw [harg] at hj
          rw [harg, List.getD_cons_succ]
          cases j with
          | zero => exact hlt
          | succ j2 =>
            rw [List.getD_cons_succ]
            exact ihfirst j2 (by omega)
      · have harg : argminFirst (d :: e :: rest2) = 0 := by
          simp only [argminFirst, hlt, if_false]
        push_neg at hlt
        refine ⟨by rw [harg]; simp, ?_, ?_⟩
        · intro j hj
          rw [harg, List.getD_cons_zero]
          cases j with
          | zero => simp
          | succ j2 =>
            rw [List.getD_cons_succ]
            exact hlt.trans (ihmin j2 (by simpa using hj))
        · intro j hj
          rw [harg] at hj
          omega

/-! ### Claim theorems: scoring and deduplication -/

/-- C5: for every text, `compute_importance` returns a value in [0, 1];
for empty or whitespace-only text it returns exactly 0. -/
theorem C5_importance_bounds (text : List Char) :
    0 ≤ compute_importance text ∧ compute_importance text ≤ 1 ∧
    ((∀ c ∈ text, isSpace c) → compute_importance text = 0) :=
  ⟨compute_importance_nonneg text, compute_importance_le_one text,
   compute_importance_of_space text⟩

theorem C5_importance_bounds_witness :
    compute_importance (String.toList "  ") = 0 ∧
    0 ≤ compute_importance (String.toList "hi there") ∧
    compute_importance (String.toList "hi there") ≤ 1 :=
  ⟨(C5_importance_bounds (String.toList "  ")).2.2 (by decide),
   (C5_importance_bounds (String.toList "hi there")).1,
   (C5_importance_bounds (String.toList "hi there")).2.1⟩

/-- C3: `deduplicate_content` returns `(false, none)` on an empty distance
list; otherwise it returns the first index of the minimum distance
regardless of the verdict, the verdict holds iff `1 - min distance` is at
least the threshold, and the boundary `distance = 1 - threshold` is
classified as a duplicate. -/
theorem C3_dedup_spec (cand : List Char) (docs : List (List Char)) (t : ℚ)
    (dists : List ℚ) :
    deduplicate_content cand docs [] t = (false, none) ∧
    (dists ≠ [] →
      ∃ i, i < dists.length ∧
        deduplicate_content cand docs dists t = (decide (t ≤ 1 - dists.getD i 0), some i) ∧
        (∀ j, j < dists.length → dists.getD i 0 ≤ dists.getD j 0) ∧
        (∀ j, j < i → dists.getD i 0 < dists.getD j 0) ∧
        (dists.getD i 0 = 1 - t → (deduplicate_content cand docs dists t).fst = true)) := by
  refine ⟨rfl, ?_⟩
  intro hne
  match dists with
  | d :: rest =>
    obtain ⟨hlt, hmin, hfirst⟩ := argminFirst_spec (d :: rest) (by simp)
    refine ⟨argminFirst (d :: rest), hlt, rfl, hmin, hfirst, ?_⟩
    intro hb
    simp only [deduplicate_content, hb]
    simp

theorem C3_dedup_spec_witness :
    ∃ i, (deduplicate_content [] [] [(1:ℚ)/2, 1/50, 2/5] (92/100)).snd = some i ∧
      i < 3 := by
  obtain ⟨i, hlen, heq, -, -, -⟩ :=
    (C3_dedup_spec [] [] (92/100) [(1:ℚ)/2, 1/50, 2/5]).2 (by decide)
  exact ⟨i, by rw [heq], by simpa using hlen⟩

/-- C9: the result of `deduplicate_content` depends only on the distance
list and the threshold — the candidate text and the existing documents
never influence the returned pair. -/
theorem C9_dedup_depends_only_on_distances (cand1 cand2 : List Char)
    (docs1 docs2 : List (List Char)) (dists : List ℚ) (t : ℚ) :
    deduplicate_content cand1 docs1 dists t = deduplicate_content cand2 docs2 dists t := by
  unfold deduplicate_content
  rfl

/-! ### Dictionary lemmas -/

theorem dictGet_mapSet_self (k : String) (v : MetaVal) :
    ∀ d : Meta, d.any (fun p => p.fst == k) = true →
      dictGet (d.map (fun p => if p.fst == k then (k, v) else p)) k = some v := by
  intro d
  induction d with
  | nil => intro h; simp at h
  | cons p rest ih =>
    intro h
    by_cases hp : p.fst == k
    · simp [dictGet, hp]
    · simp only [List.map_cons, hp, if_false, Bool.false_eq_true, dictGet]
      apply ih
      simpa [hp] using h

theorem dictGet_mapSet_ne (k k2 : String) (v : MetaVal) (hne : k2 ≠ k) :
    ∀ d : Meta,
      dictGet (d.map (fun p => if p.fst == k then (k, v) else p)) k2 = dictGet d k2 := by
  intro d
  induction d with
  | nil => rfl
  | cons p rest ih =>
    by_cases hp : p.fst == k
    · have hpk : p.fst = k := by simpa using hp
      simp only [List.map_cons, hp, if_true, dictGet]
      rw [if_neg (by simp [hne.symm]), if_neg (by simp [hpk, hne.symm]), ih]
    · simp only [List.map_cons, hp, if_false, Bool.false_eq_true, dictGet]
      by_cases hp2 : p.fst == k2
      · rw [if_pos hp2, if_pos hp2]
      · rw [if_neg hp2, if_neg hp2, ih]

theorem dictGet_append_absent (k : String) (tail : Meta) :
    ∀ d : Meta, d.any (fun p => p.fst == k) = false →
      dictGet (d ++ tail) k = dictGet tail k := by
  intro d
  induction d with
  | nil => intro _; rfl
  | cons p rest ih =>
    intro h
    simp only [List.any_cons, Bool.or_eq_false_iff] at h
    simp only [List.cons_append, dictGet, List.append_eq]
    rw [if_neg (by simp [h.1]), ih h.2]

theorem dictGet_dictSet_self (d : Meta) (k : String) (v : MetaVal) :
    dictGet (dictSet d k v) k = some v := by
  unfold dictSet
  by_cases h : d.any (fun p => p.fst == k)
  · rw [if_pos h]
    exact dictGet_mapSet_self k v d h
  · rw [if_neg h, dictGet_append_absent k _ d (Bool.eq_false_iff.mpr h)]
    simp [dictGet]

theorem dictGet_append_single_ne (k k2 : String) (v : MetaVal) (hne : k2 ≠ k) :
    ∀ d : Meta, dictGet (d ++ [(k, v)]) k2 = dictGet d k2 := by
  intro d
  induction d with
  | nil =>
    simp only [List.nil_append, dictGet]
    rw [if_neg (by simp [hne.symm])]
  | cons p rest ih =>
    simp only [List.cons_append, dictGet, List.append_eq]
    by_cases hp : p.fst == k2
    · rw [if_pos hp, if_pos hp]
    · rw [if_neg hp, if_neg hp, ih]

theorem dictGet_dictSet_ne (d : Meta) (k k2 : String) (v : MetaVal) (hne : k2 ≠ k) :
    dictGet (dictSet d k v) k2 = dictGet d k2 := by
  unfold dictSet
  by_cases h : d.any (fun p => p.fst == k)
  · rw [if_pos h]
    exact dictGet_mapSet_ne k k2 v hne d
  · rw [if_neg h]
    exact dictGet_append_single_ne k k2 v hne d

theorem dictUpd_cons (d : Meta) (q : String × MetaVal) (rest : Meta) :
    dictUpd d (q :: rest) = dictUpd (dictSet d q.fst q.snd) rest := rfl

theorem dictGet_dictUpd_not_mem (m : Meta) :
    ∀ (d : Meta) (k : String), (∀ p ∈ m, p.fst ≠ k) →
      dictGet (dictUpd d m) k = dictGet d k := by
  induction m with
  | nil => intro d k _; rfl
  | cons q rest ih =>
    intro d k h
    rw [dictUpd_cons]
    rw [ih (dictSet d q.fst q.snd) k (fun p hp => h p (List.mem_cons_of_mem q hp))]
    exact dictGet_dictSet_ne d q.fst k q.snd (fun he => h q (List.mem_cons_self q rest) he.symm)

theorem dictGet_dictUpd_mem (m : Meta) :
    ∀ (d : Meta) (k : String) (v : MetaVal),
      (m.map Prod.fst).Nodup → dictGet m k = some v →
      dictGet (dictUpd d m) k = some v := by
  induction m with
  | nil => intro d k v _ h; simp [dictGet] at h
  | cons q rest ih =>
    intro d k v hnd h
    rw [List.map_cons, List.nodup_cons] at hnd
    obtain ⟨hq, hrest⟩ := hnd
    rw [dictUpd_cons]
    by_cases hqk : q.fst == k
    · have hqk2 : q.fst = k := by simpa using hqk
      have hv : v = q.snd := by
        simp only [dictGet] at h
        rw [if_pos hqk] at h
        exact (Option.some_inj.mp h).symm
      subst hv
      rw [dictGet_dictUpd_not_mem rest (dictSet d q.fst q.snd) k ?hmem]
      · rw [← hqk2]
        exact dictGet_dictSet_self d q.fst q.snd
      case hmem =>
        intro p hp he
        exact hq (by rw [← hqk2] at he; exact he ▸ List.mem_map_of_mem Prod.fst hp)
    · have h2 : dictGet rest k = some v := by
        simp only [dictGet] at h
        rw [if_neg hqk] at h
        exact h
      exact ih (dictSet d q.fst q.snd) k v hrest h2

/-! ### Chunking lemmas -/

theorem splitBlankAux_sum_le : ∀ (fuel : Nat) (l acc : List Char),
    ((splitBlankAux fuel l acc).map List.length).sum ≤ acc.length + l.length := by
  intro fuel
  induction fuel with
  | zero =>
    intro l acc
    cases l with
    | nil => simp [splitBlankAux]
    | cons c rest => simp [splitBlankAux]
  | succ fuel ih =>
    intro l acc
    cases l with
    | nil => simp [splitBlankAux]
    | cons c rest =>
      by_cases hc : c == '\n'
      · simp only [splitBlankAux, hc, if_true]
        cases hs : sepRest rest with
        | some r =>
          have hr := sepRest_length_le rest r hs
          have hrec := ih r []
          simp only [List.map_cons, List.sum_cons, List.length_reverse, List.length_cons,
            List.length_nil] at *
          omega
        | none =>
          have hrec := ih rest (c :: acc)
          simp only [List.length_cons] at *
          omega
      · simp only [splitBlankAux, hc, if_false, Bool.false_eq_true]
        have hrec := ih rest (c :: acc)
        simp only [List.length_cons] at *
        omega

theorem stripChars_length_le (l : List Char) : (stripChars l).length ≤ l.length := by
  unfold stripChars
  calc ((l.dropWhile isSpace).reverse.dropWhile isSpace).reverse.length
      = ((l.dropWhile isSpace).reverse.dropWhile isSpace).length := List.length_reverse _
    _ ≤ (l.dropWhile isSpace).reverse.length := (List.dropWhile_sublist isSpace).length_le
    _ = (l.dropWhile isSpace).length := List.length_reverse _
    _ ≤ l.length := (List.dropWhile_sublist isSpace).length_le

theorem sum_map_length_filter_le (P : List Char → Bool) :
    ∀ l : List (List Char),
      (((l.filter P).map List.length).sum ≤ (l.map List.length).sum) := by
  intro l
  induction l with
  | nil => simp
  | cons x rest ih =>
    by_cases hx : P x
    · simp only [List.filter_cons, hx, if_true, List.map_cons, List.sum_cons]
      omega
    · simp only [List.filter_cons, hx, if_false, Bool.false_eq_true, List.map_cons,
        List.sum_cons]
      omega

theorem sum_map_le_of_le (f g : List Char → Nat) :
    ∀ l : List (List Char), (∀ x ∈ l, f x ≤ g x) →
      ((l.map f).sum ≤ (l.map g).sum) := by
  intro l
  induction l with
  | nil => intro _; simp
  | cons x rest ih =>
    intro h
    simp only [List.map_cons, List.sum_cons]
    have h1 := h x (List.mem_cons_self x rest)
    have h2 := ih (fun y hy => h y (List.mem_cons_of_mem x hy))
    omega

theorem paragraphsOf_sum_le (text : List Char) :
    ((paragraphsOf text).map List.length).sum ≤ text.length := by
  unfold paragraphsOf
  calc ((((splitBlank text).map stripChars).filter (fun p => !p.isEmpty)).map
        List.length).sum
      ≤ (((splitBlank text).map stripChars).map List.length).sum :=
        sum_map_length_filter_le _ _
    _ = ((splitBlank text).map (fun p => (stripChars p).length)).sum := by
        rw [List.map_map]; rfl
    _ ≤ ((splitBlank text).map List.length).sum :=
        sum_map_le_of_le _ _ _ (fun x _ => stripChars_length_le x)
    _ ≤ text.length := by
        have := splitBlankAux_sum_le text.length text []
        simpa [splitBlank] using this

theorem chunkAux_all_fit (maxSize : Nat) :
    ∀ (paras parts : List (List Char)) (size : Nat),
      size = (parts.map List.length).sum →
      size + (paras.map List.length).sum ≤ maxSize →
      (parts ≠ [] ∨ paras ≠ []) →
      chunkAux maxSize paras parts size = [joinSep nl2 (parts ++ paras)] := by
  intro paras
  induction paras with
  | nil =>
    intro parts size hsize hfit hne
    rcases hne with h | h
    · simp only [chunkAux]
      rw [if_neg (by simpa [List.isEmpty_iff] using h), List.append_nil]
    · exact absurd rfl h
  | cons para rest ih =>
    intro parts size hsize hfit hne
    simp only [List.map_cons, List.sum_cons] at hfit
    simp only [chunkAux]
    rw [if_neg (by omega : ¬ maxSize < para.length)]
    have hc : ¬((decide (maxSize < size + para.length) && !parts.isEmpty) = true) := by
      simp only [Bool.and_eq_true, decide_eq_true_eq]
      intro hcontra
      omega
    rw [if_neg hc]
    rw [ih (parts ++ [para]) (size + para.length)
      (by simp [hsize]) (by omega) (Or.inl (by simp))]
    rw [List.append_assoc, List.singleton_append]

theorem dropWhile_head_not (p : Char → Bool) :
    ∀ (l : List Char) (x : Char) (xs : List Char),
      l.dropWhile p = x :: xs → p x = false := by
  intro l
  induction l with
  | nil => intro x xs h; simp [List.dropWhile] at h
  | cons c rest ih =>
    intro x xs h
    by_cases hc : p c
    · rw [List.dropWhile_cons_of_pos hc] at h
      exact ih x xs h
    · rw [List.dropWhile_cons_of_neg hc] at h
      cases h
      exact Bool.eq_false_iff.mpr hc

theorem exists_not_space_of_stripChars_ne_nil (l : List Char) (h : stripChars l ≠ []) :
    ∃ c ∈ l, isSpace c = false := by
  unfold stripChars at h
  rw [ne_eq, List.reverse_eq_nil_iff] at h
  match hd : (l.dropWhile isSpace).reverse.dropWhile isSpace, h with
  | x :: xs, _ =>
    have hx : isSpace x = false := dropWhile_head_not isSpace _ x xs hd
    have hmem : x ∈ (l.dropWhile isSpace).reverse := by
      have : x ∈ x :: xs := List.mem_cons_self x xs
      rw [← hd] at this
      exact (List.dropWhile_sublist isSpace).subset this
    rw [List.mem_reverse] at hmem
    exact ⟨x, (List.dropWhile_sublist isSpace).subset hmem, hx⟩

theorem sepRest_mem : ∀ (l r : List Char), sepRest l = some r →
    ∀ c ∈ l, c ∈ r ∨ isSpace c = true := by
  intro l
  induction l with
  | nil => intro r h; simp [sepRest] at h
  | cons c0 rest ih =>
    intro r h c hc
    simp only [sepRest] at h
    by_cases hsp : isSpace c0
    · rw [if_pos hsp] at h
      cases hs : sepRest rest with
      | some r2 =>
        rw [hs] at h
        cases h
        rcases List.mem_cons.mp hc with rfl | hin
        · exact Or.inr hsp
        · exact ih _ hs c hin
      | none =>
        rw [hs] at h
        by_cases hnl : c0 == '\n'
        · rw [if_pos hnl] at h
          cases h
          rcases List.mem_cons.mp hc with rfl | hin
          · exact Or.inr hsp
          · exact Or.inl hin
        · rw [if_neg hnl] at h
          cases h
    · rw [if_neg hsp] at h
      cases h

theorem splitBlankAux_mem : ∀ (fuel : Nat) (l acc : List Char) (c : Char),
    isSpace c = false → (c ∈ l ∨ c ∈ acc) →
    ∃ p ∈ splitBlankAux fuel l acc, c ∈ p := by
  intro fuel
  induction fuel with
  | zero =>
    intro l acc c hns hc
    cases l with
    | nil =>
      refine ⟨acc.reverse, by simp [splitBlankAux], ?_⟩
      rw [List.mem_reverse]
      simpa using hc
    | cons c0 rest =>
      refine ⟨acc.reverse ++ c0 :: rest, by simp [splitBlankAux], ?_⟩
      rw [List.mem_append, List.mem_reverse]
      exact hc.symm
  | succ fuel ih =>
    intro l acc c hns hc
    cases l with
    | nil =>
      refine ⟨acc.reverse, by simp [splitBlankAux], ?_⟩
      rw [List.mem_reverse]
      simpa using hc
    | cons c0 rest =>
      by_cases hc0 : c0 == '\n'
      · simp only [splitBlankAux, hc0, if_true]
        cases hs : sepRest rest with
        | some r =>
          rcases hc with hin | hacc
          · rcases List.mem_cons.mp hin with rfl | hrest
            · simp [show c = '\n' from by simpa using hc0, isSpace] at hns
            · rcases sepRest_mem rest r hs c hrest with hr | hsp
              · obtain ⟨p, hp, hcp⟩ := ih r [] c hns (Or.inl hr)
                exact ⟨p, List.mem_cons_of_mem _ hp, hcp⟩
              · rw [hsp] at hns; cases hns
          · exact ⟨acc.reverse, List.mem_cons_self _ _, by rwa [List.mem_reverse]⟩
        | none =>
          apply ih rest (c0 :: acc) c hns
          rcases hc with hin | hacc
          · rcases List.mem_cons.mp hin with rfl | hrest
            · exact Or.inr (List.mem_cons_self _ _)
            · exact Or.inl hrest
          · exact Or.inr (List.mem_cons_of_mem _ hacc)
      · simp only [splitBlankAux, hc0, if_false, Bool.false_eq_true]
        apply ih rest (c0 :: acc) c hns
        rcases hc with hin | hacc
        · rcases List.mem_cons.mp hin with rfl | hrest
          · exact Or.inr (List.mem_cons_self _ _)
          · exact Or.inl hrest
        · exact Or.inr (List.mem_cons_of_mem _ hacc)

theorem all_space_of_stripChars_nil (p : List Char) (h : stripChars p = []) :
    ∀ c ∈ p, isSpace c = true := by
  unfold stripChars at h
  rw [List.reverse_eq_nil_iff] at h
  have hdrop : ∀ x ∈ (p.dropWhile isSpace).reverse, isSpace x := by
    rw [← List.dropWhile_eq_nil_iff]
    exact h
  intro c hc
  rcases List.mem_append.mp
      (by rw [List.takeWhile_append_dropWhile] at *; exact hc :
        c ∈ p.takeWhile isSpace ++ p.dropWhile isSpace) with ht | hd
  · exact List.mem_takeWhile_imp ht
  · exact hdrop c (List.mem_reverse.mpr hd)

theorem stripChars_of_paragraphs_nil (text : List Char)
    (h : paragraphsOf text = []) : stripChars text = [] := by
  by_contra hst
  obtain ⟨c, hcmem, hcns⟩ := exists_not_space_of_stripChars_ne_nil text hst
  obtain ⟨p, hp, hcp⟩ :=
    splitBlankAux_mem text.length text [] c hcns (Or.inl hcmem)
  have hpstrip : stripChars p ≠ [] := by
    intro hnil
    rw [all_space_of_stripChars_nil p hnil c hcp] at hcns
    cases hcns
  have hmem : stripChars p ∈ paragraphsOf text := by
    unfold paragraphsOf
    rw [List.mem_filter]
    refine ⟨List.mem_map_of_mem stripChars hp, ?_⟩
    simpa [List.isEmpty_iff] using hpstrip
  rw [h] at hmem
  cases hmem

/-! ### Store-path lemmas -/

theorem effectMeta_store_with_dedup (sv : StoreView) (content : List Char)
    (meta : Meta) (t : ℚ) :
    effectMeta (store_with_dedup sv content meta t).snd = meta := by
  unfold store_with_dedup
  split
  · rfl
  · split <;> rfl

theorem store_with_dedup_merge (sv : StoreView) (content : List Char) (meta : Meta)
    (t : ℚ) (i : Nat) (h0 : sv.count ≠ 0)
    (hdup : deduplicate_content content sv.nearest.documents sv.nearest.distances t =
      (true, some i)) :
    store_with_dedup sv content meta t =
      (sv.nearest.ids.getD i "",
       StoreEffect.update (sv.nearest.ids.getD i "")
         (if (sv.nearest.documents.getD i []).length ≤ content.length then content
          else sv.nearest.documents.getD i []) meta) := by
  unfold store_with_dedup
  rw [if_neg h0, hdup]

theorem chunk_text_ne_nil (text : List Char) (maxSize : Nat) :
    chunk_text text maxSize ≠ [] := by
  unfold chunk_text
  dsimp only
  split
  · split <;> simp
  · split
    · simp
    · simp_all [List.isEmpty_iff]

theorem storeChunks_ne_nil (call : StoreCall) : storeChunks call ≠ [] := by
  unfold storeChunks
  split
  · exact chunk_text_ne_nil _ _
  · simp

theorem store_length (call : StoreCall) (now t : ℚ) (views : Nat → StoreView) :
    (store call now t views).length = (storeChunks call).length := by
  unfold store
  rw [List.length_map, List.enum_length]

theorem store_getD (call : StoreCall) (now t : ℚ) (views : Nat → StoreView)
    (i : Nat) (hi : i < (storeChunks call).length) :
    (store call now t views).getD i ("", .add "" [] []) =
      store_with_dedup (views i) ((storeChunks call).getD i [])
        (chunkMeta (baseMeta now call) ((storeChunks call).getD i [])) t := by
  have hlen : i < (store call now t views).length := by
    rw [store_length]; exact hi
  rw [List.getD_eq_getElem _ _ hlen, List.getD_eq_getElem _ _ hi]
  unfold store
  rw [List.getElem_map, List.getElem_enum]

/-! ### Claim theorems: chunking -/

/-- C8 (corrected): for text no longer than the chunk bound, `chunk_text`
returns a single chunk — but that chunk is the paragraph-normalised text
(paragraphs stripped of surrounding whitespace and joined by exactly one
blank line, whitespace-only text collapsing to the empty string), which
equals the input only when the input is already in that form. -/
theorem C8_short_text_single_chunk (text : List Char) (maxSize : Nat)
    (h : text.length ≤ maxSize) :
    chunk_text text maxSize = [joinSep nl2 (paragraphsOf text)] := by
  unfold chunk_text
  dsimp only
  by_cases hpe : (paragraphsOf text).isEmpty
  · rw [if_pos hpe, stripChars_of_paragraphs_nil text (List.isEmpty_iff.mp hpe),
      List.isEmpty_iff.mp hpe]
    rfl
  · rw [if_neg hpe]
    have hne : paragraphsOf text ≠ [] := by simpa [List.isEmpty_iff] using hpe
    have hsum : ((paragraphsOf text).map List.length).sum ≤ maxSize :=
      le_trans (paragraphsOf_sum_le text) h
    rw [chunkAux_all_fit maxSize (paragraphsOf text) [] 0 rfl (by simpa using hsum)
      (Or.inr hne)]
    rfl

theorem C8_short_text_single_chunk_witness :
    chunk_text (String.toList "a\n\nb") 500 = [String.toList "a\n\nb"] := by
  rw [C8_short_text_single_chunk (String.toList "a\n\nb") 500 (by decide)]
  decide

/-- C8 counterexample: "  hi" is far below the bound, yet `chunk_text`
returns ["hi"], not the input verbatim — the claimed identity
`chunk(text) = [text]` fails for short text carrying leading
whitespace. -/
theorem C8_counterexample :
    (String.toList "  hi").length ≤ 500 ∧
    chunk_text (String.toList "  hi") 500 = [String.toList "hi"] ∧
    [String.toList "hi"] ≠ [String.toList "  hi"] := by
  decide

theorem packSentAux_chunks (maxSize : Nat) :
    ∀ (sents buf : List (List Char)) (size : Nat),
      size = (buf.map List.length).sum →
      (buf = [] ∨ (buf.map List.length).sum ≤ maxSize ∨ ∃ s, buf = [s]) →
      ∀ c ∈ packSentAux maxSize sents buf size,
        ∃ parts, parts ≠ [] ∧ c = joinSep sp1 parts ∧
          ((parts.map List.length).sum ≤ maxSize ∨ ∃ s, parts = [s]) := by
  intro sents
  induction sents with
  | nil =>
    intro buf size hsize hinv c hc
    simp only [packSentAux] at hc
    by_cases hb : buf.isEmpty
    · rw [if_pos hb] at hc
      cases hc
    · rw [if_neg hb] at hc
      have hbne : buf ≠ [] := by simpa [List.isEmpty_iff] using hb
      rcases List.mem_singleton.mp hc with rfl
      refine ⟨buf, hbne, rfl, ?_⟩
      rcases hinv with h | h | h
      · exact absurd h hbne
      · exact Or.inl h
      · exact Or.inr h
  | cons sent rest ih =>
    intro buf size hsize hinv c hc
    simp only [packSentAux] at hc
    by_cases hcond : (decide (maxSize < size + sent.length) && !buf.isEmpty) = true
    · rw [if_pos hcond] at hc
      simp only [Bool.and_eq_true, decide_eq_true_eq, Bool.not_eq_true',
        List.isEmpty_iff] at hcond
      rcases List.mem_cons.mp hc with rfl | hrec
      · have hbne : buf ≠ [] := by
          intro hnil
          simp [hnil] at hcond
        refine ⟨buf, hbne, rfl, ?_⟩
        rcases hinv with h | h | h
        · exact absurd h hbne
        · exact Or.inl h
        · exact Or.inr h
      · exact ih [sent] sent.length (by simp) (Or.inr (Or.inr ⟨sent, rfl⟩)) c hrec
    · rw [if_neg hcond] at hc
      apply ih (buf ++ [sent]) (size + sent.length) (by simp [hsize]) ?_ c hc
      by_cases hb : buf = []
      · subst hb
        exact Or.inr (Or.inr ⟨sent, rfl⟩)
      · have hle : size + sent.length ≤ maxSize := by
          simp only [Bool.and_eq_true, decide_eq_true_eq, Bool.not_eq_true',
            List.isEmpty_iff, not_and] at hcond
          rcases Nat.lt_or_ge maxSize (size + sent.length) with hlt | hge
          · exact absurd hb (by simpa using hcond hlt)
          · exact hge
        refine Or.inr (Or.inl ?_)
        simp only [List.map_append, List.sum_append, List.map_cons, List.sum_cons,
          List.map_nil, List.sum_nil]
        omega

theorem chunkAux_chunks (maxSize : Nat) :
    ∀ (paras parts : List (List Char)) (size : Nat),
      size = (parts.map List.length).sum →
      (parts = [] ∨ (parts.map List.length).sum ≤ maxSize) →
      ∀ c ∈ chunkAux maxSize paras parts size,
        ∃ sep partsc, sep.length ≤ 2 ∧ partsc ≠ [] ∧ c = joinSep sep partsc ∧
          ((partsc.map List.length).sum ≤ maxSize ∨ ∃ s, partsc = [s]) := by
  intro paras
  induction paras with
  | nil =>
    intro parts size hsize hinv c hc
    simp only [chunkAux] at hc
    by_cases hp : parts.isEmpty
    · rw [if_pos hp] at hc
      cases hc
    · rw [if_neg hp] at hc
      have hpne : parts ≠ [] := by simpa [List.isEmpty_iff] using hp
      rcases List.mem_singleton.mp hc with rfl
      refine ⟨nl2, parts, by decide, hpne, rfl, ?_⟩
      rcases hinv with h | h
      · exact absurd h hpne
      · exact Or.inl h
  | cons para rest ih =>
    intro parts size hsize hinv c hc
    simp only [chunkAux] at hc
    by_cases hlong : maxSize < para.length
    · rw [if_pos hlong] at hc
      rcases List.mem_append.mp hc with hc1 | hc2
      · rcases List.mem_append.mp hc1 with hflush | hpack
        · by_cases hp : parts.isEmpty
          · rw [if_pos hp] at hflush
            cases hflush
          · rw [if_neg hp] at hflush
            have hpne : parts ≠ [] := by simpa [List.isEmpty_iff] using hp
            rcases List.mem_singleton.mp hflush with rfl
            refine ⟨nl2, parts, by decide, hpne, rfl, ?_⟩
            rcases hinv with h | h
            · exact absurd h hpne
            · exact Or.inl h
        · obtain ⟨partsc, hne, hceq, hd⟩ :=
            packSentAux_chunks maxSize (splitSentences para) [] 0 rfl (Or.inl rfl) c hpack
          exact ⟨sp1, partsc, by decide, hne, hceq, hd⟩
      · exact ih [] 0 rfl (Or.inl rfl) c hc2
    · rw [if_neg hlong] at hc
      push_neg at hlong
      by_cases hcond : (decide (maxSize < size + para.length) && !parts.isEmpty) = true
      · rw [if_pos hcond] at hc
        simp only [Bool.and_eq_true, decide_eq_true_eq, Bool.not_eq_true',
          List.isEmpty_iff] at hcond
        rcases List.mem_cons.mp hc with rfl | hrec
        · have hpne : parts ≠ [] := by
            intro hnil
            simp [hnil] at hcond
          refine ⟨nl2, parts, by decide, hpne, rfl, ?_⟩
          rcases hinv with h | h
          · exact absurd h hpne
          · exact Or.inl h
        · exact ih [para] para.length (by simp) (Or.inr (by simpa using hlong)) c hrec
      · rw [if_neg hcond] at hc
        apply ih (parts ++ [para]) (size + para.length) (by simp [hsize]) ?_ c hc
        by_cases hp : parts = []
        · subst hp
          exact Or.inr (by simpa using hlong)
        · have hle : size + para.length ≤ maxSize := by
            simp only [Bool.and_eq_true, decide_eq_true_eq, Bool.not_eq_true',
              List.isEmpty_iff, not_and] at hcond
            rcases Nat.lt_or_ge maxSize (size + para.length) with hlt | hge
            · exact absurd hp (by simpa using hcond hlt)
            · exact hge
          refine Or.inr ?_
          simp only [List.map_append, List.sum_append, List.map_cons, List.sum_cons,
            List.map_nil, List.sum_nil]
          omega

theorem joinSep_length (sep : List Char) :
    ∀ parts : List (List Char), parts ≠ [] →
      (joinSep sep parts).length =
        (parts.map List.length).sum + sep.length * (parts.length - 1) := by
  intro parts
  induction parts with
  | nil => intro h; exact absurd rfl h
  | cons p rest ih =>
    intro _
    cases rest with
    | nil => simp [joinSep]
    | cons q rest2 =>
      have hr := ih (by simp)
      simp only [joinSep, List.length_append, List.map_cons, List.sum_cons,
        List.length_cons, Nat.add_sub_cancel, Nat.mul_succ] at *
      omega

/-- C2 (corrected): every chunk is a join of non-empty pieces whose
lengths sum to at most `max_chunk_size` — so a chunk may exceed the bound
only by the 1–2-character joiners between consecutive pieces, i.e. by at
most `2*(pieces-1)` characters — except a chunk consisting of one single
piece (an oversized sentence, the stripped short input, or the whole-text
fallback), which is returned whole. -/
theorem C2_chunk_size_bound (text : List Char) (maxSize : Nat) :
    ∀ c ∈ chunk_text text maxSize,
      ∃ sep parts, sep.length ≤ 2 ∧ parts ≠ [] ∧ c = joinSep sep parts ∧
        (((parts.map List.length).sum ≤ maxSize ∧
          c.length ≤ maxSize + 2 * (parts.length - 1)) ∨
         ∃ s, parts = [s] ∧ c = s) := by
  intro c hc
  unfold chunk_text at hc
  dsimp only at hc
  by_cases hpe : (paragraphsOf text).isEmpty
  · rw [if_pos hpe] at hc
    by_cases hst : (stripChars text).isEmpty
    · rw [if_pos hst] at hc
      rcases List.mem_singleton.mp hc with rfl
      exact ⟨nl2, [[]], by decide, by simp, rfl, Or.inl (by simp)⟩
    · rw [if_neg hst] at hc
      exact ⟨nl2, [c], by decide, by simp, rfl, Or.inr ⟨c, rfl, rfl⟩⟩
  · rw [if_neg hpe] at hc
    by_cases hch : (chunkAux maxSize (paragraphsOf text) [] 0).isEmpty
    · rw [if_pos hch] at hc
      exact ⟨nl2, [c], by decide, by simp, rfl, Or.inr ⟨c, rfl, rfl⟩⟩
    · rw [if_neg hch] at hc
      obtain ⟨sep, parts, hsep, hne, hceq, hd⟩ :=
        chunkAux_chunks maxSize (paragraphsOf text) [] 0 rfl (Or.inl rfl) c hc
      refine ⟨sep, parts, hsep, hne, hceq, ?_⟩
      rcases hd with hsum | hsing
      · refine Or.inl ⟨hsum, ?_⟩
        rw [hceq, joinSep_length sep parts hne]
        have hmul : sep.length * (parts.length - 1) ≤ 2 * (parts.length - 1) :=
          Nat.mul_le_mul_right _ hsep
        omega
      · rcases hsing with ⟨s, rfl⟩
        exact Or.inr ⟨s, rfl, by simpa [joinSep] using hceq⟩

theorem C2_chunk_size_bound_witness :
    ∃ sep parts, sep.length ≤ 2 ∧ parts ≠ [] ∧
      String.toList "aaaaa\n\nbbbbb" = joinSep sep parts ∧
      (((parts.map List.length).sum ≤ 10 ∧
        (String.toList "aaaaa\n\nbbbbb").length ≤ 10 + 2 * (parts.length - 1)) ∨
       ∃ s, parts = [s] ∧ String.toList "aaaaa\n\nbbbbb" = s) :=
  C2_chunk_size_bound (String.toList "aaaaa\n\nbbbbb") 10
    (String.toList "aaaaa\n\nbbbbb") (by decide)

/-- C2 counterexample: with bound 10, the text "aaaaa\n\nbbbbb" comes
back as one 12-character chunk although every paragraph and every
sentence of it is within the bound — the separator characters inserted by
the join are not counted by the accumulator, refuting the claim that only
an oversized single sentence/paragraph can exceed the bound. -/
theorem C2_counterexample :
    chunk_text (String.toList "aaaaa\n\nbbbbb") 10 =
      [String.toList "aaaaa\n\nbbbbb"] ∧
    10 < (String.toList "aaaaa\n\nbbbbb").length ∧
    (paragraphsOf (String.toList "aaaaa\n\nbbbbb")).all
      (fun p => decide (p.length ≤ 10)) = true ∧
    (paragraphsOf (String.toList "aaaaa\n\nbbbbb")).all
      (fun p => (splitSentences p).all (fun s => decide (s.length ≤ 10))) = true := by
  decide

/-! ### Claim theorems: the store path -/

/-- C6: whenever a chunk is classified as a duplicate of an existing
entry, the coordinator updates that entry with the longer of the two
texts (the new chunk winning ties), returns the existing entry's id, and
the result is independent of the fresh id supply (no new id is used on
the merge path). -/
theorem C6_merge_keeps_longer (sv : StoreView) (content : List Char) (meta : Meta)
    (t : ℚ) (i : Nat) (h0 : sv.count ≠ 0)
    (hdup : deduplicate_content content sv.nearest.documents sv.nearest.distances t =
      (true, some i)) :
    (store_with_dedup sv content meta t).fst = sv.nearest.ids.getD i "" ∧
    (∃ merged,
      (store_with_dedup sv content meta t).snd =
        StoreEffect.update (sv.nearest.ids.getD i "") merged meta ∧
      ((sv.nearest.documents.getD i []).length ≤ content.length → merged = content) ∧
      (content.length < (sv.nearest.documents.getD i []).length →
        merged = sv.nearest.documents.getD i [])) ∧
    (∀ sv2 : StoreView, sv2.count = sv.count → sv2.nearest = sv.nearest →
      store_with_dedup sv2 content meta t = store_with_dedup sv content meta t) := by
  rw [store_with_dedup_merge _ _ _ _ _ h0 hdup]
  refine ⟨rfl, ⟨_, rfl, ?_, ?_⟩, ?_⟩
  · intro h; rw [if_pos h]
  · intro h; rw [if_neg (by omega)]
  · intro sv2 h1 h2
    rw [store_with_dedup_merge sv2 content meta t i (by rw [h1]; exact h0)
      (by rw [h2]; exact hdup), h2]

theorem C6_merge_keeps_longer_witness :
    (store_with_dedup c6view (String.toList "a") [] (92/100)).fst = "e9" ∧
    (store_with_dedup c6view (String.toList "a") [] (92/100)).snd =
      StoreEffect.update "e9" (String.toList "bb cc") [] := by
  obtain ⟨h1, ⟨merged, h2, -, h4⟩, -⟩ :=
    C6_merge_keeps_longer c6view (String.toList "a") [] (92/100) 0
      (by decide) (by decide)
  refine ⟨h1, ?_⟩
  rw [h2, h4 (by decide)]
  rfl

/-- C1 (corrected): on the merge path the importance written in the
updated entry's metadata is the importance of the incoming chunk, not of
the merged document; the two agree when the incoming chunk is at least as
long as the existing document (for then the chunk itself is what is
stored). -/
theorem C1_merge_importance_is_chunk_score (sv : StoreView) (chunk : List Char)
    (base : Meta) (t : ℚ) (i : Nat) (h0 : sv.count ≠ 0)
    (hdup : deduplicate_content chunk sv.nearest.documents sv.nearest.distances t =
      (true, some i)) :
    ∃ merged,
      (store_with_dedup sv chunk (chunkMeta base chunk) t).snd =
        StoreEffect.update (sv.nearest.ids.getD i "") merged (chunkMeta base chunk) ∧
      dictGet (chunkMeta base chunk) "importance" =
        some (MetaVal.num (compute_importance chunk)) ∧
      ((sv.nearest.documents.getD i []).length ≤ chunk.length → merged = chunk) := by
  rw [store_with_dedup_merge _ _ _ _ _ h0 hdup]
  refine ⟨_, rfl, dictGet_dictSet_self base "importance" _, ?_⟩
  intro h
  rw [if_pos h]

theorem C1_merge_importance_is_chunk_score_witness :
    ∃ merged,
      (store_with_dedup c6view (String.toList "a")
          (chunkMeta [] (String.toList "a")) (92/100)).snd =
        StoreEffect.update "e9" merged (chunkMeta [] (String.toList "a")) ∧
      dictGet (chunkMeta [] (String.toList "a")) "importance" =
        some (MetaVal.num (compute_importance (String.toList "a"))) := by
  obtain ⟨merged, h1, h2, -⟩ :=
    C1_merge_importance_is_chunk_score c6view (String.toList "a") [] (92/100) 0
      (by decide) (by decide)
  exact ⟨merged, h1, h2⟩

/-- C1 counterexample: storing "a" when the nearest entry is the longer
"bb cc" at distance 0 merges into "bb cc", yet the metadata written
carries the importance of "a", which differs from the importance of the
stored (post-merge) document "bb cc". -/
theorem C1_counterexample :
    (store c1call 0 (92/100) c1views).map Prod.snd =
      [StoreEffect.update "e1" (String.toList "bb cc")
        (chunkMeta (baseMeta 0 c1call) (String.toList "a"))] ∧
    dictGet (chunkMeta (baseMeta 0 c1call) (String.toList "a")) "importance" =
      some (MetaVal.num (compute_importance (String.toList "a"))) ∧
    compute_importance (String.toList "a") ≠
      compute_importance (String.toList "bb cc") := by
  decide

/-- C7 counterexample: the caller supplies `importance = 5`, but the
metadata actually written carries the recomputed chunk importance, which
is not 5 — the caller's `importance` does not win. -/
theorem C7_counterexample :
    dictGet [("importance", MetaVal.num 5), ("extra", MetaVal.str "x")] "importance" =
      some (MetaVal.num 5) ∧
    (store c7call 0 (92/100) c7views).map (fun e => effectMeta e.snd) =
      [chunkMeta (baseMeta 0 c7call) (String.toList "a")] ∧
    dictGet (chunkMeta (baseMeta 0 c7call) (String.toList "a")) "importance" =
      some (MetaVal.num (compute_importance (String.toList "a"))) ∧
    compute_importance (String.toList "a") ≠ 5 := by
  decide

/-- C7 (corrected): in every metadata dict written by `store`, a
caller-supplied key other than `importance` keeps the caller's value
(winning over the base defaults), while `importance` is always
overwritten with the recomputed score of the stored chunk. -/
theorem C7_metadata_overlay (call : StoreCall) (now t : ℚ) (views : Nat → StoreView)
    (m : Meta) (hm : call.metadata = some m) (hnd : (m.map Prod.fst).Nodup) :
    ∀ e ∈ store call now t views,
      (∀ k v, k ≠ "importance" → dictGet m k = some v →
        dictGet (effectMeta e.snd) k = some v) ∧
      ∃ chunk ∈ storeChunks call,
        dictGet (effectMeta e.snd) "importance" =
          some (MetaVal.num (compute_importance chunk)) := by
  intro e he
  unfold store at he
  obtain ⟨ic, hic, rfl⟩ := List.mem_map.mp he
  rw [effectMeta_store_with_dedup]
  have hchunk : ic.snd ∈ storeChunks call := List.snd_mem_of_mem_enum hic
  constructor
  · intro k v hk hv
    unfold chunkMeta
    rw [dictGet_dictSet_ne _ _ _ _ hk]
    unfold baseMeta
    rw [hm, Option.getD_some]
    exact dictGet_dictUpd_mem m _ k v hnd hv
  · exact ⟨ic.snd, hchunk, dictGet_dictSet_self _ _ _⟩

theorem C7_metadata_overlay_witness :
    dictGet (effectMeta ((store c7bcall 0 (92/100) c7views).getD 0
        ("", .add "" [] [])).snd) "extra" = some (MetaVal.str "x") := by
  have h := C7_metadata_overlay c7bcall 0 (92/100) c7views
    [("extra", MetaVal.str "x"), ("session_id", MetaVal.str "s2")] (by decide) (by decide)
  have hlen : 0 < (store c7bcall 0 (92/100) c7views).length := by
    rw [store_length]
    decide
  have hmem : ((store c7bcall 0 (92/100) c7views).getD 0 ("", .add "" [] [])) ∈
      store c7bcall 0 (92/100) c7views := by
    rw [List.getD_eq_getElem _ _ hlen]
    exact List.getElem_mem hlen
  obtain ⟨hwin, -⟩ := h _ hmem
  exact hwin "extra" (MetaVal.str "x") (by decide) (by decide)

/-- C10: `store` returns exactly one (id, write) pair per processed
chunk, in chunk order, and the returned list is never empty because the
chunk list never is — `chunk_text` never returns an empty list and the
non-chunking path wraps the whole content as a single chunk. -/
theorem C10_store_one_id_per_chunk (call : StoreCall) (now t : ℚ)
    (views : Nat → StoreView) :
    (store call now t views).length = (storeChunks call).length ∧
    storeChunks call ≠ [] ∧
    store call now t views ≠ [] ∧
    (∀ text maxSize, chunk_text text maxSize ≠ []) ∧
    ∀ i, i < (storeChunks call).length →
      (store call now t views).getD i ("", .add "" [] []) =
        store_with_dedup (views i) ((storeChunks call).getD i [])
          (chunkMeta (baseMeta now call) ((storeChunks call).getD i [])) t := by
  refine ⟨store_length call now t views, storeChunks_ne_nil call, ?_,
    chunk_text_ne_nil, store_getD call now t views⟩
  intro h
  have := store_length call now t views
  rw [h] at this
  exact storeChunks_ne_nil call (List.length_eq_zero.mp this.symm)

theorem C10_store_one_id_per_chunk_witness :
    store c10call 0 (92/100) c10views ≠ [] ∧
    (store c10call 0 (92/100) c10views).getD 0 ("", .add "" [] []) =
      ("fresh0", .add "fresh0" (String.toList "hi")
        (chunkMeta (baseMeta 0 c10call) (String.toList "hi"))) := by
  obtain ⟨-, -, h3, -, h5⟩ := C10_store_one_id_per_chunk c10call 0 (92/100) c10views
  refine ⟨h3, ?_⟩
  rw [h5 0 (by decide)]
  decide

/-! ### Claim theorems: retrieval ranking -/

theorem rankLE_trans : ∀ a b c : Memory,
    rankLE a b = true → rankLE b c = true → rankLE a c = true := by
  intro a b c hab hbc
  simp only [rankLE, decide_eq_true_eq] at *
  exact le_trans hbc hab

theorem rankLE_total : ∀ a b : Memory, (rankLE a b || rankLE b a) = true := by
  intro a b
  simp only [rankLE, Bool.or_eq_true, decide_eq_true_eq]
  exact le_total (blendedScore b) (blendedScore a)

theorem pairwise_filter_const (P : Memory → Bool) (R : Memory → Memory → Prop)
    (h : ∀ a b, P a = true → P b = true → R a b) :
    ∀ l : List Memory, (l.filter P).Pairwise R := by
  intro l
  induction l with
  | nil => simp
  | cons x rest ih =>
    by_cases hx : P x
    · rw [List.filter_cons_of_pos hx]
      exact List.Pairwise.cons (fun y hy => h x y hx (List.of_mem_filter hy)) ih
    · rw [List.filter_cons_of_neg (by simpa using hx)]
      exact ih

/-- C4: `retrieve` returns a prefix (of length at most `nResults`) of a
stable descending re-ranking of the surviving candidates: the ranked list
is a permutation of the survivors, its blended scores are non-increasing,
and within every class of equal blended score the candidates appear in
exactly their index-query order (the filter by any fixed score value is
unchanged by the re-ranking). -/
theorem C4_retrieve_ranking (qv : RQueryView) (n : Nat) (minImp : ℚ) :
    ∃ ranked : List Memory,
      (buildMemories qv minImp).Perm ranked ∧
      ranked.Pairwise (fun a b => blendedScore b ≤ blendedScore a) ∧
      (∀ q : ℚ, ranked.filter (fun m => decide (blendedScore m = q)) =
        (buildMemories qv minImp).filter (fun m => decide (blendedScore m = q))) ∧
      retrieve qv n minImp = ranked.take n ∧
      (retrieve qv n minImp).length ≤ n := by
  refine ⟨(buildMemories qv minImp).mergeSort rankLE, ?_, ?_, ?_, rfl, ?_⟩
  · exact (List.mergeSort_perm _ _).symm
  · exact (List.sorted_mergeSort rankLE_trans rankLE_total
      (buildMemories qv minImp)).imp (fun hab => of_decide_eq_true hab)
  · intro q
    have hApw : ((buildMemories qv minImp).filter
        (fun m => decide (blendedScore m = q))).Pairwise
          (fun a b => rankLE a b = true) := by
      apply pairwise_filter_const
      intro a b ha hb
      simp only [decide_eq_true_eq] at ha hb
      simp [rankLE, ha, hb]
    have hsub2 : List.Sublist ((buildMemories qv minImp).filter
        (fun m => decide (blendedScore m = q)))
        ((buildMemories qv minImp).mergeSort rankLE) :=
      List.sublist_mergeSort rankLE_trans rankLE_total hApw (List.filter_sublist _)
    have hAfilter : ((buildMemories qv minImp).filter
        (fun m => decide (blendedScore m = q))).filter
          (fun m => decide (blendedScore m = q)) =
        (buildMemories qv minImp).filter (fun m => decide (blendedScore m = q)) := by
      apply List.filter_eq_self.mpr
      intro a ha
      have h2 := List.of_mem_filter ha
      simpa using h2
    have hsub3 : List.Sublist ((buildMemories qv minImp).filter
        (fun m => decide (blendedScore m = q)))
        (((buildMemories qv minImp).mergeSort rankLE).filter
          (fun m => decide (blendedScore m = q))) := by
      rw [← hAfilter]
      exact hsub2.filter _
    have hperm : List.Perm
        (((buildMemories qv minImp).mergeSort rankLE).filter
          (fun m => decide (blendedScore m = q)))
        ((buildMemories qv minImp).filter (fun m => decide (blendedScore m = q))) :=
      (List.mergeSort_perm _ _).filter _
    exact (hsub3.eq_of_length hperm.length_eq.symm).symm
  · unfold retrieve
    rw [List.length_take]
    exact min_le_left _ _

end CFC
